import Mathlib

/- Shallow embedding of the allocation core of the News-Driven-Portfolio-Simulator
   repository: config.py, allocation_engine.py, and the manual rebalancer
   rebalance_to_target from app.py.

   Python floats are modelled exactly by rationals and Python dicts of ticker
   weights by association lists `List (String × ℚ)`.  A Python dict always has
   distinct keys, so theorems carry `Nodup` hypotheses on the key list where a
   duplicate-key association list would not model any dict.  Dict comprehensions
   iterate in insertion order; all properties proved below (key membership,
   per-key value, sums over keys) are invariant under the key order, so
   `List.dedup` (which keeps the last occurrence of a key where Python keeps the
   first) is a faithful model of comprehension-style key deduplication here. -/

/-- config.py: MAX_WEIGHT_PER_STOCK = 0.15 (15 percent cap per stock). -/
def MAX_WEIGHT_PER_STOCK : ℚ := 15 / 100

/-- config.py: MAX_TURNOVER_PER_UPDATE = 0.15 (max total change per refresh). -/
def MAX_TURNOVER_PER_UPDATE : ℚ := 15 / 100

/-- A Python dict from ticker to weight, as an association list. -/
abbrev WMap := List (String × ℚ)

/-- The key list of a weight dict (Python: list(weights.keys())). -/
def keysW (w : WMap) : List String := w.map Prod.fst

/-- Dict lookup: first binding of the key, if any. -/
def lookupW : WMap → String → Option ℚ
  | [], _ => none
  | (k, v) :: rest, q => if k = q then some v else lookupW rest q

/-- Python weights.get(k, 0.0): the bound value, or 0 for a missing key. -/
def getW (w : WMap) (k : String) : ℚ := (lookupW w k).getD 0

/-- Python sum(weights.values()). -/
def wsum (w : WMap) : ℚ := (w.map Prod.snd).sum

/-- allocation_engine.equal_weight: empty input gives the empty dict, otherwise a
    dict comprehension assigns 1/len(tickers) to each distinct ticker.  Note the
    denominator is the length of the raw input list, not the number of distinct
    keys. -/
def equal_weight (tickers : List String) : WMap :=
  if tickers = [] then []
  else tickers.dedup.map (fun t => (t, 1 / (tickers.length : ℚ)))

/-- The first comprehension of allocation_engine.clamp_weights: clip each weight
    into [0, MAX_WEIGHT_PER_STOCK]. -/
def clipW (w : WMap) : WMap :=
  w.map (fun p => (p.1, min MAX_WEIGHT_PER_STOCK (max 0 p.2)))

/-- allocation_engine.clamp_weights: cap each weight, then renormalize by the
    post-clip sum; if that sum is not positive, return the clipped dict as is. -/
def clamp_weights (w : WMap) : WMap :=
  if wsum (clipW w) ≤ 0 then clipW w
  else (clipW w).map (fun p => (p.1, p.2 / wsum (clipW w)))

/-- allocation_engine.limit_turnover: all_keys = set(prev) | set(target). -/
def unionKeys (prev target : WMap) : List String :=
  (keysW prev ++ keysW target).dedup

/-- allocation_engine.limit_turnover: diffs[k] = target.get(k,0.0) - prev.get(k,0.0). -/
def diffW (prev target : WMap) (k : String) : ℚ := getW target k - getW prev k

/-- allocation_engine.limit_turnover: turnover = sum(abs(d) for d in diffs.values()). -/
def turnover (prev target : WMap) : ℚ :=
  ((unionKeys prev target).map (fun k => |diffW prev target k|)).sum

/-- allocation_engine.limit_turnover: scale = MAX_TURNOVER_PER_UPDATE / turnover. -/
def scaleFactor (prev target : WMap) : ℚ :=
  MAX_TURNOVER_PER_UPDATE / turnover prev target

/-- allocation_engine.limit_turnover: the blended dict
    {k: prev.get(k,0.0) + diffs[k]*scale} followed by the floor {k: max(0.0, v)}
    (the two comprehensions are fused into one map over the union of keys). -/
def limitedRaw (prev target : WMap) : WMap :=
  (unionKeys prev target).map
    (fun k => (k, max 0 (getW prev k + diffW prev target k * scaleFactor prev target)))

/-- allocation_engine.limit_turnover: return target when turnover is within the
    cap (or zero); otherwise blend, floor at 0, and renormalize, falling back to
    target when the post-floor sum is not positive. -/
def limit_turnover (prev target : WMap) : WMap :=
  if turnover prev target ≤ MAX_TURNOVER_PER_UPDATE ∨ turnover prev target = 0 then target
  else if wsum (limitedRaw prev target) ≤ 0 then target
  else (limitedRaw prev target).map (fun p => (p.1, p.2 / wsum (limitedRaw prev target)))

/-- A headline-analysis dict as consumed by allocation_engine.determine_regime;
    a missing key and an explicit None both read back as Option.none, matching
    Python dict.get. -/
structure Analysis where
  label : Option String
  impact_score : Option ℚ
  category : Option String
deriving DecidableEq

/-- Python float(a.get("impact_score") or 0.0): None becomes 0.0 (0.0 itself is
    also falsy in Python, but the `or` then yields the same value 0.0). -/
def impactOf (a : Analysis) : ℚ := (a.impact_score).getD 0

/-- Python a.get("category") or "Mixed": None and the empty string (the falsy
    strings) become "Mixed". -/
def categoryOf (a : Analysis) : String :=
  match a.category with
  | none => "Mixed"
  | some c => if c = "" then "Mixed" else c

/-- One iteration of the accumulation loop in determine_regime over the state
    (pos, neg, macroGeoNeg). -/
def regimeStep (acc : ℚ × ℚ × ℚ) (a : Analysis) : ℚ × ℚ × ℚ :=
  if a.label = some "Positive" then (acc.1 + impactOf a, acc.2.1, acc.2.2)
  else if a.label = some "Negative" then
    if categoryOf a = "Macro" ∨ categoryOf a = "Geopolitical" ∨ categoryOf a = "Mixed" then
      (acc.1, acc.2.1 + impactOf a, acc.2.2 + impactOf a)
    else (acc.1, acc.2.1 + impactOf a, acc.2.2)
  else acc

/-- The accumulation loop of determine_regime, from (0.0, 0.0, 0.0). -/
def regimeScores (analyses : List Analysis) : ℚ × ℚ × ℚ :=
  analyses.foldl regimeStep (0, 0, 0)

/-- allocation_engine.determine_regime: empty input is Neutral; otherwise the
    Bearish rule is checked first, then the Bullish rule, else Neutral.  The
    second and third components of regimeScores are neg and macroGeoNeg. -/
def determine_regime (analyses : List Analysis) : String × String :=
  if analyses = [] then
    ("Neutral", "No news signals available; defaulting to Neutral.")
  else if 1 ≤ (regimeScores analyses).2.2 ∧
      (regimeScores analyses).1 < (regimeScores analyses).2.1 then
    ("Bearish", "Risk-off: negative macro/geopolitical signals dominate.")
  else if 1 ≤ (regimeScores analyses).1 ∧
      (regimeScores analyses).2.1 < (regimeScores analyses).1 then
    ("Bullish", "Risk-on: positive news signals dominate.")
  else ("Neutral", "Mixed signals: holding Neutral regime.")

/-- The hardcoded tilt tickers for the Bullish regime in build_portfolios. -/
def bullTiltList : List String := ["NVDA", "MSFT", "AAPL", "AMZN"]

/-- The hardcoded tilt tickers for the Bearish regime in build_portfolios. -/
def bearTiltList : List String := ["BRK-B", "JNJ", "PG", "WMT"]

/-- One tilt-loop iteration of build_portfolios: target[t] += 0.01 when t is a
    key of target (under distinct keys, updating every matching binding equals
    updating the single dict entry). -/
def addTilt (w : WMap) (t : String) : WMap :=
  if t ∈ keysW w then
    w.map (fun p => if p.1 = t then (p.1, p.2 + 1 / 100) else p)
  else w

/-- The whole tilt loop of build_portfolios. -/
def tiltAll (w : WMap) (ts : List String) : WMap := ts.foldl addTilt w

/-- The clamped (possibly tilted) bullish target computed inside build_portfolios. -/
def bullTarget (u : List String) (regime : String) : WMap :=
  clamp_weights
    (if regime = "Bullish" then tiltAll (equal_weight u) bullTiltList else equal_weight u)

/-- The clamped (possibly tilted) bearish target computed inside build_portfolios. -/
def bearTarget (u : List String) (regime : String) : WMap :=
  clamp_weights
    (if regime = "Bearish" then tiltAll (equal_weight u) bearTiltList else equal_weight u)

/-- Python prev or targetDict: a None or empty previous dict is falsy, so the
    target is used in its place. -/
def orDefault (p t : WMap) : WMap := if p = [] then t else p

/-- allocation_engine.build_portfolios: equal-weight targets, regime tilt, cap,
    then turnover limiting against the caller-supplied previous weights. -/
def build_portfolios (bullU bearU : List String) (regime : String)
    (prev_bull prev_bear : WMap) : WMap × WMap :=
  (limit_turnover (orDefault prev_bull (bullTarget bullU regime)) (bullTarget bullU regime),
   limit_turnover (orDefault prev_bear (bearTarget bearU regime)) (bearTarget bearU regime))

/-- app.rebalance_to_target: target_weight = max(0.0, min(float(target_weight), cap)). -/
def clampTarget (tw : ℚ) : ℚ := max 0 (min tw MAX_WEIGHT_PER_STOCK)

/-- app.rebalance_to_target: others = [k for k in keys if k != ticker]. -/
def othersOf (w : WMap) (ticker : String) : List String :=
  (keysW w).filter (fun k => k ≠ ticker)

/-- app.rebalance_to_target: other_total_old = sum(weights[k] for k in others). -/
def otherTotalOld (w : WMap) (ticker : String) : ℚ :=
  ((othersOf w ticker).map (getW w)).sum

/-- app.rebalance_to_target: the dict out = {k: weights[k]*scale for k in others}
    extended with out[ticker] = target_weight, before the final renormalization,
    in the proportional-rescaling branch (scale = remaining / other_total_old). -/
def rebalanceOut (w : WMap) (ticker : String) (tw : ℚ) : WMap :=
  ((othersOf w ticker).map
      (fun k => (k, getW w k * ((1 - clampTarget tw) / otherTotalOld w ticker))))
    ++ [(ticker, clampTarget tw)]

/-- app.rebalance_to_target: missing ticker is a silent no-op; a single-key dict
    maps to {ticker: 1.0}; nearly-zero other mass distributes the remainder
    equally over the others; otherwise the others are rescaled proportionally
    and the result is renormalized when its sum is positive. -/
def rebalance_to_target (weights : WMap) (ticker : String) (target_weight : ℚ) : WMap :=
  if ticker ∉ keysW weights then weights
  else if (keysW weights).length = 1 then [(ticker, 1)]
  else if otherTotalOld weights ticker ≤ 1 / 1000000000 then
    ((othersOf weights ticker).map
        (fun k => (k, (1 - clampTarget target_weight) /
          ((othersOf weights ticker).length : ℚ))))
      ++ [(ticker, clampTarget target_weight)]
  else if 0 < wsum (rebalanceOut weights ticker target_weight) then
    (rebalanceOut weights ticker target_weight).map
      (fun p => (p.1, p.2 / wsum (rebalanceOut weights ticker target_weight)))
  else rebalanceOut weights ticker target_weight

/-- Spec-side accumulator (section 4.2): sum of impact over Positive analyses. -/
def posSum (analyses : List Analysis) : ℚ :=
  ((analyses.filter (fun a => decide (a.label = some "Positive"))).map impactOf).sum

/-- Spec-side accumulator (section 4.2): sum of impact over Negative analyses. -/
def negSum (analyses : List Analysis) : ℚ :=
  ((analyses.filter (fun a => decide (a.label = some "Negative"))).map impactOf).sum

/-- Spec-side accumulator (section 4.2): sum of impact over Negative analyses
    whose (effective) category is Macro, Geopolitical or Mixed. -/
def mgnSum (analyses : List Analysis) : ℚ :=
  ((analyses.filter (fun a => decide (a.label = some "Negative" ∧
      (categoryOf a = "Macro" ∨ categoryOf a = "Geopolitical" ∨ categoryOf a = "Mixed")))).map
    impactOf).sum

/-- L1 distance between two weight dicts over the union of their keys. -/
def l1dist (a b : WMap) : ℚ :=
  (((keysW a ++ keysW b).dedup).map (fun k => |getW a k - getW b k|)).sum

/-- Unfolding lemma for lookup on the empty dict. -/
@[simp] theorem lookupW_nil (q : String) : lookupW [] q = none := rfl

/-- Unfolding lemma for lookup on a cons cell. -/
@[simp] theorem lookupW_cons (k : String) (v : ℚ) (rest : WMap) (q : String) :
    lookupW ((k, v) :: rest) q = if k = q then some v else lookupW rest q := rfl

/-- A key with no binding looks up to none. -/
theorem lookupW_eq_none (w : WMap) (k : String) (h : k ∉ keysW w) : lookupW w k = none := by
  induction w with
  | nil => rfl
  | cons p rest ih =>
    obtain ⟨p1, p2⟩ := p
    simp only [keysW, List.map_cons, List.mem_cons] at h
    push_neg at h
    simp only [lookupW_cons, if_neg (Ne.symm h.1)]
    exact ih (by simpa [keysW] using h.2)

/-- A key with no binding reads back as 0. -/
theorem getW_eq_zero (w : WMap) (k : String) (h : k ∉ keysW w) : getW w k = 0 := by
  simp [getW, lookupW_eq_none w k h]

/-- A successful lookup comes from a binding in the list. -/
theorem mem_of_lookupW (w : WMap) (k : String) (v : ℚ) (h : lookupW w k = some v) :
    (k, v) ∈ w := by
  induction w with
  | nil => simp at h
  | cons p rest ih =>
    obtain ⟨p1, p2⟩ := p
    simp only [lookupW_cons] at h
    by_cases hk : p1 = k
    · rw [if_pos hk] at h
      subst hk
      simp at h
      simp [h]
    · rw [if_neg hk] at h
      exact List.mem_cons_of_mem _ (ih h)

/-- A dict with entrywise nonnegative values reads nonnegative at every key. -/
theorem getW_nonneg (w : WMap) (hnn : ∀ p ∈ w, 0 ≤ p.2) (k : String) : 0 ≤ getW w k := by
  unfold getW
  cases h : lookupW w k with
  | none => simp
  | some v => simpa using hnn _ (mem_of_lookupW w k v h)

/-- Lookup in a dict built by mapping a function over a key list. -/
theorem lookupW_mapSelf (L : List String) (f : String → ℚ) (k : String) :
    lookupW (L.map (fun x => (x, f x))) k = if k ∈ L then some (f k) else none := by
  induction L with
  | nil => simp
  | cons a L ih =>
    simp only [List.map_cons, lookupW_cons, List.mem_cons, ih]
    by_cases ha : a = k
    · subst ha
      simp
    · simp [ha, Ne.symm ha]

/-- Read-back from a dict built by mapping a function over a key list. -/
theorem getW_mapSelf (L : List String) (f : String → ℚ) (k : String) :
    getW (L.map (fun x => (x, f x))) k = if k ∈ L then f k else 0 := by
  simp [getW, lookupW_mapSelf]
  split <;> simp

/-- The key list of a dict built by mapping a function over a key list. -/
theorem keysW_mapSelf (L : List String) (f : String → ℚ) :
    keysW (L.map (fun x => (x, f x))) = L := by
  simp [keysW, List.map_map, Function.comp_def]

/-- The value sum of a dict built by mapping a function over a key list. -/
theorem wsum_mapSelf (L : List String) (f : String → ℚ) :
    wsum (L.map (fun x => (x, f x))) = (L.map f).sum := by
  simp [wsum, List.map_map, Function.comp_def]

/-- The value sum of an appended dict. -/
theorem wsum_append (a b : WMap) : wsum (a ++ b) = wsum a + wsum b := by
  simp [wsum]

/-- Dividing every value of a dict divides its value sum. -/
theorem wsum_map_div (w : WMap) (c : ℚ) :
    wsum (w.map (fun p => (p.1, p.2 / c))) = wsum w / c := by
  induction w with
  | nil => simp [wsum]
  | cons p rest ih =>
    simp only [wsum, List.map_cons, List.sum_cons] at ih ⊢
    rw [ih]
    ring

/-- Summing the read-back function over the dict's own (distinct) keys gives the
    value sum. -/
theorem sum_getW_keys (w : WMap) (h : (keysW w).Nodup) :
    ((keysW w).map (getW w)).sum = wsum w := by
  induction w with
  | nil => simp [keysW, wsum]
  | cons p rest ih =>
    obtain ⟨p1, p2⟩ := p
    simp only [keysW, List.map_cons, List.nodup_cons] at h
    have hmap : (keysW rest).map (getW ((p1, p2) :: rest)) = (keysW rest).map (getW rest) := by
      refine List.map_congr_left (fun k hk => ?_)
      have : p1 ≠ k := fun hc => h.1 (hc ▸ hk)
      simp [getW, lookupW_cons, if_neg this]
    calc ((keysW ((p1, p2) :: rest)).map (getW ((p1, p2) :: rest))).sum
        = getW ((p1, p2) :: rest) p1 + ((keysW rest).map (getW ((p1, p2) :: rest))).sum := by
          simp [keysW]
      _ = p2 + ((keysW rest).map (getW rest)).sum := by
          rw [hmap]
          simp [getW, lookupW_cons]
      _ = p2 + wsum rest := by rw [ih h.2]
      _ = wsum ((p1, p2) :: rest) := by simp [wsum]

/-- Summing the read-back function over any duplicate-free superset of the keys
    gives the value sum: keys outside the dict read back as 0. -/
theorem sum_getW_superset (w : WMap) (hw : (keysW w).Nodup) (L : List String)
    (hL : L.Nodup) (hsub : ∀ k ∈ keysW w, k ∈ L) :
    (L.map (getW w)).sum = wsum w := by
  rw [← List.sum_toFinset _ hL, ← sum_getW_keys w hw, ← List.sum_toFinset _ hw]
  refine (Finset.sum_subset ?_ ?_).symm
  · intro x hx
    rw [List.mem_toFinset] at hx ⊢
    exact hsub x hx
  · intro x _ hx
    rw [List.mem_toFinset] at hx
    exact getW_eq_zero w x hx

/-- Sums of a map agree over duplicate-free index lists with the same members. -/
theorem sum_map_congr_mem (L M : List String) (f : String → ℚ) (hL : L.Nodup)
    (hM : M.Nodup) (h : ∀ k, k ∈ L ↔ k ∈ M) : (L.map f).sum = (M.map f).sum := by
  rw [← List.sum_toFinset _ hL, ← List.sum_toFinset _ hM]
  congr 1
  ext x
  rw [List.mem_toFinset, List.mem_toFinset]
  exact h x

/-- Pointwise linear-combination sums split. -/
theorem sum_map_linear (L : List String) (f g : String → ℚ) (c : ℚ) :
    (L.map (fun k => f k + g k * c)).sum = (L.map f).sum + c * (L.map g).sum := by
  induction L with
  | nil => simp
  | cons a L ih =>
    simp only [List.map_cons, List.sum_cons, ih]
    ring

/-- Pointwise difference sums split. -/
theorem sum_map_sub (L : List String) (f g : String → ℚ) :
    (L.map (fun k => f k - g k)).sum = (L.map f).sum - (L.map g).sum := by
  induction L with
  | nil => simp
  | cons a L ih =>
    simp only [List.map_cons, List.sum_cons, ih]
    ring

/-- A sum of terms scaled on the right by a common factor. -/
theorem sum_map_mul_const (L : List String) (f : String → ℚ) (c : ℚ) :
    (L.map (fun k => f k * c)).sum = (L.map f).sum * c := by
  induction L with
  | nil => simp
  | cons a L ih =>
    simp only [List.map_cons, List.sum_cons, ih]
    ring

/-- A sum of terms scaled by a common nonnegative factor, in absolute value. -/
theorem sum_map_abs_mul (L : List String) (g : String → ℚ) (c : ℚ) (hc : 0 ≤ c) :
    (L.map (fun k => |g k * c|)).sum = (L.map (fun k => |g k|)).sum * c := by
  have h : (L.map (fun k => |g k * c|)) = (L.map (fun k => |g k| * c)) :=
    List.map_congr_left (fun k _ => by rw [abs_mul, abs_of_nonneg hc])
  rw [h, sum_map_mul_const]

/-- A sum of a constant over a key list. -/
theorem sum_map_const (L : List String) (c : ℚ) :
    (L.map (fun _ => c)).sum = (L.length : ℚ) * c := by
  induction L with
  | nil => simp
  | cons a L ih =>
    simp only [List.map_cons, List.sum_cons, ih, List.length_cons]
    push_cast
    ring

/-- Lookup in an appended dict when the key is absent from the front part. -/
theorem lookupW_append_right (a b : WMap) (k : String) (h : k ∉ keysW a) :
    lookupW (a ++ b) k = lookupW b k := by
  induction a with
  | nil => simp
  | cons p rest ih =>
    obtain ⟨p1, p2⟩ := p
    simp only [keysW, List.map_cons, List.mem_cons] at h
    push_neg at h
    simp only [List.cons_append, lookupW_cons, if_neg (Ne.symm h.1)]
    exact ih (by simpa [keysW] using h.2)

/-- Lookup in an appended dict when the key is bound in the front part. -/
theorem lookupW_append_left (a b : WMap) (k : String) (h : k ∈ keysW a) :
    lookupW (a ++ b) k = lookupW a k := by
  induction a with
  | nil => simp [keysW] at h
  | cons p rest ih =>
    obtain ⟨p1, p2⟩ := p
    simp only [List.cons_append, lookupW_cons]
    by_cases hk : p1 = k
    · rw [if_pos hk, if_pos hk]
    · rw [if_neg hk, if_neg hk]
      refine ih ?_
      simp only [keysW, List.map_cons, List.mem_cons] at h
      rcases h with h | h
      · exact absurd h.symm hk
      · simpa [keysW] using h

/-- The key list of an appended dict. -/
theorem keysW_append (a b : WMap) : keysW (a ++ b) = keysW a ++ keysW b := by
  simp [keysW]

/-- A sum of zeros over a key list. -/
theorem sum_map_zero (L : List String) : (L.map (fun _ => (0 : ℚ))).sum = 0 := by
  induction L with
  | nil => simp
  | cons a L ih => simp [ih]

/-- The turnover of a dict against itself is zero. -/
theorem turnover_self (w : WMap) : turnover w w = 0 := by
  unfold turnover
  have h : ((unionKeys w w).map (fun k => |diffW w w k|)) =
      ((unionKeys w w).map (fun _ => (0 : ℚ))) := by
    refine List.map_congr_left (fun k _ => ?_)
    simp [diffW]
  rw [h, sum_map_zero]

/-- Turnover limiting against an identical previous dict is the identity. -/
theorem limit_turnover_self (w : WMap) : limit_turnover w w = w := by
  unfold limit_turnover
  rw [turnover_self]
  simp

/-- Defaulting a dict against itself is the identity. -/
theorem orDefault_self (w : WMap) : orDefault w w = w := by
  unfold orDefault
  split <;> rfl

/-- The accumulation loop of determine_regime, run from any start state, adds the
    three filter-based sums of the spec to that state. -/
theorem regimeScores_aux (l : List Analysis) (init : ℚ × ℚ × ℚ) :
    l.foldl regimeStep init = (init.1 + posSum l, init.2.1 + negSum l, init.2.2 + mgnSum l) := by
  induction l generalizing init with
  | nil => simp [posSum, negSum, mgnSum]
  | cons a l ih =>
    rw [List.foldl_cons, ih]
    unfold regimeStep posSum negSum mgnSum
    by_cases hP : a.label = some "Positive"
    · have hN : ¬a.label = some "Negative" := by simp [hP]
      simp only [if_pos hP, List.filter_cons, hP, hN, decide_True, decide_False,
        decide_eq_true_eq, if_true, if_false, false_and, List.map_cons, List.sum_cons]
      refine Prod.ext ?_ (Prod.ext ?_ ?_) <;> (simp; try ring)
    · by_cases hN : a.label = some "Negative"
      · by_cases hC : categoryOf a = "Macro" ∨ categoryOf a = "Geopolitical" ∨
            categoryOf a = "Mixed"
        · simp only [if_neg hP, if_pos hN, if_pos hC, List.filter_cons, hP, hN, hC,
            decide_True, decide_False, decide_eq_true_eq, true_and, and_true,
            List.map_cons, List.sum_cons]
          refine Prod.ext ?_ (Prod.ext ?_ ?_) <;> (simp [hP, hN, hC]; try ring)
        · simp only [if_neg hP, if_pos hN, if_neg hC, List.filter_cons, hP, hN, hC,
            decide_True, decide_False, decide_eq_true_eq, true_and, and_false,
            List.map_cons, List.sum_cons]
          refine Prod.ext ?_ (Prod.ext ?_ ?_) <;> (simp [hP, hN, hC]; try ring)
      · simp only [if_neg hP, if_neg hN, List.filter_cons, hP, hN,
          decide_False, decide_eq_true_eq, false_and]
        refine Prod.ext ?_ (Prod.ext ?_ ?_) <;> simp [hP, hN]

/-- The loop state of determine_regime equals the spec's three accumulators. -/
theorem regimeScores_eq (analyses : List Analysis) :
    regimeScores analyses = (posSum analyses, negSum analyses, mgnSum analyses) := by
  rw [regimeScores, regimeScores_aux]
  simp

/-- The regime component of determine_regime as the ordered decision rule of the
    spec over the three accumulators (the empty batch also satisfies this form,
    since all three sums are then 0). -/
theorem determine_regime_fst (analyses : List Analysis) :
    (determine_regime analyses).1 =
      (if 1 ≤ mgnSum analyses ∧ posSum analyses < negSum analyses then "Bearish"
       else if 1 ≤ posSum analyses ∧ negSum analyses < posSum analyses then "Bullish"
       else "Neutral") := by
  unfold determine_regime
  by_cases he : analyses = []
  · subst he
    have h1 : posSum ([] : List Analysis) = 0 := rfl
    have h2 : negSum ([] : List Analysis) = 0 := rfl
    have h3 : mgnSum ([] : List Analysis) = 0 := rfl
    rw [if_pos rfl, h1, h2, h3]
    norm_num
  · rw [if_neg he, regimeScores_eq]
    simp only
    split_ifs <;> rfl

/-- C2: determine_regime accumulates pos as the sum of impact_score over
    Positive-labelled analyses, neg over Negative ones, and the third
    accumulator over the Negative ones whose effective category is Macro,
    Geopolitical or Mixed; it returns Bearish iff that third accumulator is at
    least 1 and neg exceeds pos, else Bullish iff pos is at least 1 and exceeds
    neg, else Neutral, with the Bearish rule checked first; the two-analysis
    example of the spec (impacts 0.6 and 0.5, both Negative, Macro and
    Geopolitical) yields Bearish. -/
theorem determine_regime_accumulation (analyses : List Analysis) :
    regimeScores analyses = (posSum analyses, negSum analyses, mgnSum analyses) ∧
    (determine_regime analyses).1 =
      (if 1 ≤ mgnSum analyses ∧ posSum analyses < negSum analyses then "Bearish"
       else if 1 ≤ posSum analyses ∧ negSum analyses < posSum analyses then "Bullish"
       else "Neutral") ∧
    (determine_regime
        [⟨some "Negative", some (3 / 5), some "Macro"⟩,
         ⟨some "Negative", some (1 / 2), some "Geopolitical"⟩]).1 = "Bearish" := by
  refine ⟨regimeScores_eq analyses, determine_regime_fst analyses, ?_⟩
  have hp : posSum
      [⟨some "Negative", some (3 / 5), some "Macro"⟩,
       ⟨some "Negative", some (1 / 2), some "Geopolitical"⟩] = 0 := by
    simp [posSum, impactOf]
  have hn : negSum
      [⟨some "Negative", some (3 / 5), some "Macro"⟩,
       ⟨some "Negative", some (1 / 2), some "Geopolitical"⟩] = 11 / 10 := by
    simp [negSum, impactOf]
    norm_num
  have hm : mgnSum
      [⟨some "Negative", some (3 / 5), some "Macro"⟩,
       ⟨some "Negative", some (1 / 2), some "Geopolitical"⟩] = 11 / 10 := by
    simp [mgnSum, impactOf, categoryOf]
    norm_num
  rw [determine_regime_fst, hp, hn, hm]
  norm_num

/-- C3 counterexample: for the weight dict {A: 0.9, B: 0.1} (nonnegative, unit
    sum) clamp_weights renormalizes the capped weight of A up to 0.6, exceeding
    MAX_WEIGHT_PER_STOCK = 0.15 by 0.45 — far beyond any small renormalization
    epsilon. -/
theorem clamp_weights_cap_exceeded :
    getW (clamp_weights [("A", 9 / 10), ("B", 1 / 10)]) "A" = 3 / 5 ∧
    MAX_WEIGHT_PER_STOCK + 2 / 5 < 3 / 5 := by
  have hclip : clipW [("A", 9 / 10), ("B", 1 / 10)] = [("A", 3 / 20), ("B", 1 / 10)] := by
    simp [clipW, MAX_WEIGHT_PER_STOCK, min_def, max_def]
    norm_num
  have hs : wsum [("A", (3 : ℚ) / 20), ("B", 1 / 10)] = 1 / 4 := by
    simp [wsum]
    norm_num
  constructor
  · unfold clamp_weights
    rw [hclip, hs, if_neg (by norm_num)]
    simp [getW]
    norm_num
  · norm_num [MAX_WEIGHT_PER_STOCK]

/-- C3 amended: every clipped weight lies in [0, MAX_WEIGHT_PER_STOCK]; when the
    post-clip sum is not positive the clipped dict is returned unchanged; when it
    is positive the output sums to exactly 1, but renormalization can push
    individual weights above the cap by the factor one-over-post-clip-sum (not
    merely a small epsilon), as the counterexample shows. -/
theorem clamp_weights_amended (w : WMap) :
    (∀ p ∈ clipW w, 0 ≤ p.2 ∧ p.2 ≤ MAX_WEIGHT_PER_STOCK) ∧
    (wsum (clipW w) ≤ 0 → clamp_weights w = clipW w) ∧
    (0 < wsum (clipW w) → wsum (clamp_weights w) = 1) := by
  refine ⟨?_, fun h => by unfold clamp_weights; rw [if_pos h], fun h => ?_⟩
  · intro p hp
    unfold clipW at hp
    obtain ⟨q, hq, rfl⟩ := List.mem_map.mp hp
    exact ⟨le_min (by norm_num [MAX_WEIGHT_PER_STOCK]) (le_max_left 0 q.2), min_le_left _ _⟩
  · unfold clamp_weights
    rw [if_neg (not_le.mpr h), wsum_map_div, div_self (ne_of_gt h)]

/-- C3 amended, witness at the dict {A: 0.1, B: 0.1}: post-clip sum positive and
    output sum exactly 1. -/
theorem clamp_weights_amended_witness :
    0 < wsum (clipW [("A", 1 / 10), ("B", 1 / 10)]) ∧
    wsum (clamp_weights [("A", 1 / 10), ("B", 1 / 10)]) = 1 := by
  have h : 0 < wsum (clipW [("A", 1 / 10), ("B", 1 / 10)]) := by
    simp [clipW, wsum, MAX_WEIGHT_PER_STOCK, min_def, max_def]
    norm_num
  exact ⟨h, (clamp_weights_amended [("A", 1 / 10), ("B", 1 / 10)]).2.2 h⟩

/-- C6: when the ticker is not a key of the weights dict, rebalance_to_target
    returns the input dict unchanged — a silent no-op, no error and no change. -/
theorem rebalance_missing_ticker_noop (w : WMap) (ticker : String) (tw : ℚ)
    (h : ticker ∉ keysW w) : rebalance_to_target w ticker tw = w := by
  unfold rebalance_to_target
  rw [if_pos h]

/-- C6 witness: a ticker absent from the dict leaves it untouched. -/
theorem rebalance_missing_ticker_noop_witness :
    rebalance_to_target [("A", 1 / 2)] "Z" (3 / 10) = [("A", 1 / 2)] :=
  rebalance_missing_ticker_noop [("A", 1 / 2)] "Z" (3 / 10) (by simp [keysW])

/-- C7 counterexample: on the empty batch the reason string is the fixed
    sentence of the code, not the literal string "no signal", so the returned
    pair differs from (Neutral, "no signal"). -/
theorem determine_regime_empty_pair_ne :
    determine_regime [] ≠ ("Neutral", "no signal") := by
  simp [determine_regime]

/-- C7 amended: the empty batch deterministically returns Neutral paired with
    the code's no-signal reason sentence; and any batch whose Positive impacts
    sum to exactly 1 with no Negative-labelled analysis is classified Bullish. -/
theorem determine_regime_empty_and_positive (analyses : List Analysis)
    (hpos : posSum analyses = 1)
    (hneg : ∀ a ∈ analyses, a.label ≠ some "Negative") :
    determine_regime [] =
      ("Neutral", "No news signals available; defaulting to Neutral.") ∧
    (determine_regime analyses).1 = "Bullish" := by
  refine ⟨by simp [determine_regime], ?_⟩
  have hn : negSum analyses = 0 := by
    unfold negSum
    rw [List.filter_eq_nil_iff.mpr (fun a ha => by simp [hneg a ha])]
    simp
  have hm : mgnSum analyses = 0 := by
    unfold mgnSum
    rw [List.filter_eq_nil_iff.mpr (fun a ha => by simp [hneg a ha])]
    simp
  rw [determine_regime_fst, hpos, hn, hm]
  norm_num

/-- C7 amended, witness: one Positive analysis of impact exactly 1. -/
theorem determine_regime_empty_and_positive_witness :
    (determine_regime [⟨some "Positive", some 1, some "Company"⟩]).1 = "Bullish" :=
  (determine_regime_empty_and_positive [⟨some "Positive", some 1, some "Company"⟩]
    (by simp [posSum, impactOf]) (by simp)).2

/-- C8 counterexample: the ticker list [A, A] has length 2, so each distinct key
    receives weight 1/2 and the output sums to 1/2 — more than 1e-9 away
    from 1. -/
theorem equal_weight_dup_sum_ne_one :
    equal_weight ["A", "A"] = [("A", 1 / 2)] ∧
    (1 : ℚ) / 1000000000 < |wsum (equal_weight ["A", "A"]) - 1| := by
  have h : wsum (equal_weight ["A", "A"]) = 1 / 2 := by
    simp [equal_weight, wsum]
  refine ⟨by simp [equal_weight], ?_⟩
  rw [h, abs_of_nonpos (by norm_num)]
  norm_num

/-- C8 amended: the empty list gives the empty dict; for every non-empty
    duplicate-free list of N tickers the output sums to exactly 1 and every
    ticker reads back weight 1/N. -/
theorem equal_weight_spec (tickers : List String) (hne : tickers ≠ [])
    (hnd : tickers.Nodup) :
    equal_weight [] = ([] : WMap) ∧
    wsum (equal_weight tickers) = 1 ∧
    ∀ t ∈ tickers, getW (equal_weight tickers) t = 1 / (tickers.length : ℚ) := by
  have hlen : (tickers.length : ℚ) ≠ 0 :=
    Nat.cast_ne_zero.mpr (fun h => hne (List.length_eq_zero.mp h))
  refine ⟨rfl, ?_, ?_⟩
  · unfold equal_weight
    rw [if_neg hne, hnd.dedup, wsum_mapSelf, sum_map_const, mul_one_div, div_self hlen]
  · intro t ht
    unfold equal_weight
    rw [if_neg hne, hnd.dedup, getW_mapSelf, if_pos ht]

/-- C8 amended, witness at the two-ticker list [A, B]. -/
theorem equal_weight_spec_witness : wsum (equal_weight ["A", "B"]) = 1 :=
  (equal_weight_spec ["A", "B"] (by simp) (by simp)).2.1

/-- C10: an analysis whose category is missing (None) is treated as category
    Mixed, so when its label is Negative its impact contributes to the
    macro-geo-negative accumulator (and to neg) while leaving pos alone; an
    analysis whose impact_score is missing contributes 0 to every accumulator. -/
theorem determine_regime_missing_fields (a : Analysis) (rest : List Analysis) :
    (a.category = none → categoryOf a = "Mixed") ∧
    (a.category = none → a.label = some "Negative" →
      regimeScores (a :: rest) =
        (posSum rest, impactOf a + negSum rest, impactOf a + mgnSum rest)) ∧
    (a.impact_score = none → impactOf a = 0) := by
  refine ⟨fun hc => by simp [categoryOf, hc], fun hc hl => ?_,
    fun hi => by simp [impactOf, hi]⟩
  have hcat : categoryOf a = "Mixed" := by simp [categoryOf, hc]
  rw [regimeScores_eq]
  refine Prod.ext ?_ (Prod.ext ?_ ?_) <;>
    simp [posSum, negSum, mgnSum, List.filter_cons, hl, hcat]

/-- C10 witness: a Negative analysis with no category and no impact_score. -/
theorem determine_regime_missing_fields_witness :
    categoryOf ⟨some "Negative", none, none⟩ = "Mixed" ∧
    regimeScores [⟨some "Negative", none, none⟩] = (0, 0, 0) := by
  have h := determine_regime_missing_fields ⟨some "Negative", none, none⟩ []
  refine ⟨h.1 rfl, ?_⟩
  rw [h.2.1 rfl rfl, h.2.2 rfl]
  norm_num [posSum, negSum, mgnSum]

/-- The pre-renormalization dict of the proportional branch of
    rebalance_to_target sums to exactly 1: the others sum to remaining and the
    ticker carries the clamped target. -/
theorem wsum_rebalanceOut (w : WMap) (ticker : String) (tw : ℚ)
    (h : otherTotalOld w ticker ≠ 0) :
    wsum (rebalanceOut w ticker tw) = 1 := by
  unfold rebalanceOut
  rw [wsum_append, wsum_mapSelf, sum_map_mul_const]
  have hsum : ((othersOf w ticker).map (getW w)).sum = otherTotalOld w ticker := rfl
  rw [hsum, mul_comm, div_mul_cancel₀ _ h]
  simp [wsum]

/-- C9: for a weights dict with at least two (distinct) keys, nonnegative
    values, and containing the ticker, rebalance_to_target returns a dict whose
    values sum to exactly 1, in the equal-distribution branch and in the
    proportional branch alike (where the pre-renormalization sum is exactly 1,
    making the final renormalization a division by 1). -/
theorem rebalance_unit_sum (w : WMap) (ticker : String) (tw : ℚ)
    (hmem : ticker ∈ keysW w) (hnd : (keysW w).Nodup)
    (hlen : 2 ≤ (keysW w).length) (_hnn : ∀ p ∈ w, 0 ≤ p.2) :
    wsum (rebalance_to_target w ticker tw) = 1 := by
  unfold rebalance_to_target
  rw [if_neg (not_not_intro hmem), if_neg (by omega)]
  by_cases hsmall : otherTotalOld w ticker ≤ 1 / 1000000000
  · rw [if_pos hsmall]
    obtain ⟨a, b, L, hk⟩ : ∃ a b L, keysW w = a :: b :: L := by
      rcases h1 : keysW w with _ | ⟨a, _ | ⟨b, L⟩⟩
      · rw [h1] at hlen; simp at hlen
      · rw [h1] at hlen; simp at hlen
      · exact ⟨a, b, L, rfl⟩
    have hab : a ≠ b := by
      rw [hk, List.nodup_cons] at hnd
      exact fun h => hnd.1 (h ▸ List.mem_cons_self b L)
    have hex : ∃ k, k ∈ keysW w ∧ k ≠ ticker := by
      by_cases ha : a = ticker
      · exact ⟨b, by rw [hk]; simp, fun h => hab (ha.trans h.symm)⟩
      · exact ⟨a, by rw [hk]; simp, ha⟩
    have hlen2 : ((othersOf w ticker).length : ℚ) ≠ 0 := by
      obtain ⟨k, hk1, hk2⟩ := hex
      have hin : k ∈ othersOf w ticker := by simp [othersOf, hk1, hk2]
      exact Nat.cast_ne_zero.mpr
        (List.length_pos.mpr (List.ne_nil_of_mem hin)).ne'
    rw [wsum_append, wsum_mapSelf, sum_map_const, mul_comm, div_mul_cancel₀ _ hlen2]
    simp [wsum]
  · rw [if_neg hsmall]
    have hne : otherTotalOld w ticker ≠ 0 := by
      have : (0 : ℚ) < otherTotalOld w ticker := by
        have := not_le.mp hsmall
        linarith
      exact this.ne'
    have hone := wsum_rebalanceOut w ticker tw hne
    rw [if_pos (by rw [hone]; norm_num), wsum_map_div, hone]
    norm_num

/-- C9 witness: a two-asset dict whose values sum to 1.2 still rebalances to an
    exactly unit-sum dict. -/
theorem rebalance_unit_sum_witness :
    wsum (rebalance_to_target [("A", 7 / 10), ("B", 1 / 2)] "A" (1 / 10)) = 1 :=
  rebalance_unit_sum [("A", 7 / 10), ("B", 1 / 2)] "A" (1 / 10)
    (by simp [keysW]) (by simp [keysW]) (by simp [keysW])
    (by simp [List.forall_mem_cons]; norm_num)

/-- C5: with the ticker present, at least two keys, and non-negligible other
    mass, rebalance_to_target clamps the requested weight into
    [0, MAX_WEIGHT_PER_STOCK] and scales every other weight by
    remaining/other_total_old, preserving the ratios among the untouched
    assets (the final renormalization divides by an exact 1). -/
theorem rebalance_to_target_spec (w : WMap) (ticker : String) (tw : ℚ)
    (hmem : ticker ∈ keysW w) (_hnd : (keysW w).Nodup)
    (hlen : 2 ≤ (keysW w).length)
    (hoth : 1 / 1000000000 < otherTotalOld w ticker) :
    getW (rebalance_to_target w ticker tw) ticker = clampTarget tw ∧
    (∀ k ∈ keysW w, k ≠ ticker →
      getW (rebalance_to_target w ticker tw) k =
        getW w k * ((1 - clampTarget tw) / otherTotalOld w ticker)) := by
  have hne : otherTotalOld w ticker ≠ 0 := by
    have : (0 : ℚ) < otherTotalOld w ticker := by linarith
    exact this.ne'
  have hone := wsum_rebalanceOut w ticker tw hne
  have hred : rebalance_to_target w ticker tw = rebalanceOut w ticker tw := by
    unfold rebalance_to_target
    rw [if_neg (not_not_intro hmem), if_neg (by omega), if_neg (not_le.mpr hoth),
      if_pos (by rw [hone]; norm_num), hone]
    simp
  rw [hred]
  have hto : ticker ∉ othersOf w ticker := by simp [othersOf]
  constructor
  · unfold rebalanceOut getW
    rw [lookupW_append_right]
    · simp
    · rw [keysW_mapSelf]
      exact hto
  · intro k hk hkt
    have hkin : k ∈ othersOf w ticker := by simp [othersOf, hk, hkt]
    unfold rebalanceOut getW
    rw [lookupW_append_left, lookupW_mapSelf, if_pos hkin]
    · simp
    · rw [keysW_mapSelf]
      exact hkin

/-- C5 witness, the spec's example: rebalancing A to a requested 0.8 in the dict
    {A: 0.5, B: 0.5} clamps to the 0.15 cap and yields {A: 0.15, B: 0.85}. -/
theorem rebalance_to_target_spec_witness :
    getW (rebalance_to_target [("A", 1 / 2), ("B", 1 / 2)] "A" (4 / 5)) "A" = 3 / 20 ∧
    getW (rebalance_to_target [("A", 1 / 2), ("B", 1 / 2)] "A" (4 / 5)) "B" = 17 / 20 := by
  have hoth : (1 : ℚ) / 1000000000 < otherTotalOld [("A", 1 / 2), ("B", 1 / 2)] "A" := by
    have h : otherTotalOld [("A", 1 / 2), ("B", 1 / 2)] "A" = 1 / 2 := by
      simp [otherTotalOld, othersOf, keysW, getW]
    rw [h]
    norm_num
  have h := rebalance_to_target_spec [("A", 1 / 2), ("B", 1 / 2)] "A" (4 / 5)
    (by simp [keysW]) (by simp [keysW]) (by simp [keysW]) hoth
  have hct : clampTarget (4 / 5) = 3 / 20 := by
    rw [clampTarget, MAX_WEIGHT_PER_STOCK, min_def, max_def]
    norm_num
  have htot : otherTotalOld [("A", 1 / 2), ("B", 1 / 2)] "A" = 1 / 2 := by
    simp [otherTotalOld, othersOf, keysW, getW]
  constructor
  · rw [h.1, hct]
  · rw [h.2 "B" (by simp [keysW]) (by simp), hct, htot]
    have hB : getW [("A", (1 : ℚ) / 2), ("B", 1 / 2)] "B" = 1 / 2 := by
      simp [getW]
    rw [hB]
    norm_num

/-- C4: if one call of build_portfolios returned the two clamped targets (its
    turnover limiting was not binding), then calling it again with the same
    regime and universes and with the previous weights equal to that output
    reproduces the output: the pair is a fixed point, because the second call's
    turnover against an identical previous dict is 0. -/
theorem build_portfolios_fixed_point (u1 u2 : List String) (regime : String)
    (p1 p2 : WMap)
    (h : build_portfolios u1 u2 regime p1 p2 = (bullTarget u1 regime, bearTarget u2 regime)) :
    build_portfolios u1 u2 regime
        (build_portfolios u1 u2 regime p1 p2).1 (build_portfolios u1 u2 regime p1 p2).2 =
      build_portfolios u1 u2 regime p1 p2 := by
  rw [h]
  unfold build_portfolios
  rw [orDefault_self, orDefault_self, limit_turnover_self, limit_turnover_self]

/-- C4 witness: a first cycle with no previous weights on one-ticker universes
    returns the targets, and feeding that output back reproduces it. -/
theorem build_portfolios_fixed_point_witness :
    build_portfolios ["NVDA"] ["JNJ"] "Neutral"
        (build_portfolios ["NVDA"] ["JNJ"] "Neutral" [] []).1
        (build_portfolios ["NVDA"] ["JNJ"] "Neutral" [] []).2 =
      build_portfolios ["NVDA"] ["JNJ"] "Neutral" [] [] :=
  build_portfolios_fixed_point ["NVDA"] ["JNJ"] "Neutral" [] []
    (by unfold build_portfolios orDefault; rw [if_pos rfl, if_pos rfl,
      limit_turnover_self, limit_turnover_self])

/-- C1: for weight dicts prev and target (distinct keys, nonnegative entries,
    unit sums), limit_turnover returns target unchanged when the raw L1
    turnover over the union of keys is within MAX_TURNOVER_PER_UPDATE
    (including turnover 0), and otherwise — after the blend, the floor at 0
    (which is a no-op here) and the renormalization (a division by an exact
    1) — the output's total absolute deviation from prev is at most
    MAX_TURNOVER_PER_UPDATE (so certainly at most the cap plus any epsilon). -/
theorem limit_turnover_spec (prev target : WMap)
    (hpk : (keysW prev).Nodup) (htk : (keysW target).Nodup)
    (hpn : ∀ p ∈ prev, 0 ≤ p.2) (htn : ∀ p ∈ target, 0 ≤ p.2)
    (hps : wsum prev = 1) (hts : wsum target = 1) :
    (turnover prev target ≤ MAX_TURNOVER_PER_UPDATE → limit_turnover prev target = target) ∧
    (MAX_TURNOVER_PER_UPDATE < turnover prev target →
      l1dist (limit_turnover prev target) prev ≤ MAX_TURNOVER_PER_UPDATE) := by
  constructor
  · intro h
    unfold limit_turnover
    rw [if_pos (Or.inl h)]
  · intro h
    have hT0 : 0 < turnover prev target := by
      have hMT : (0 : ℚ) < MAX_TURNOVER_PER_UPDATE := by norm_num [MAX_TURNOVER_PER_UPDATE]
      linarith
    have hcond : ¬(turnover prev target ≤ MAX_TURNOVER_PER_UPDATE ∨
        turnover prev target = 0) := by
      rintro (h1 | h2)
      · linarith
      · rw [h2] at hT0
        exact lt_irrefl 0 hT0
    have hc0 : 0 < scaleFactor prev target :=
      div_pos (by norm_num [MAX_TURNOVER_PER_UPDATE]) hT0
    have hc1 : scaleFactor prev target ≤ 1 := by
      rw [scaleFactor]
      exact (div_le_one hT0).mpr (le_of_lt h)
    have hLnd : (unionKeys prev target).Nodup := List.nodup_dedup _
    have hsubp : ∀ k ∈ keysW prev, k ∈ unionKeys prev target := by
      intro k hk
      unfold unionKeys
      rw [List.mem_dedup, List.mem_append]
      exact Or.inl hk
    have hsubt : ∀ k ∈ keysW target, k ∈ unionKeys prev target := by
      intro k hk
      unfold unionKeys
      rw [List.mem_dedup, List.mem_append]
      exact Or.inr hk
    have hpt : ∀ k, 0 ≤ getW prev k + diffW prev target k * scaleFactor prev target := by
      intro k
      have e : getW prev k + diffW prev target k * scaleFactor prev target =
          (1 - scaleFactor prev target) * getW prev k +
            scaleFactor prev target * getW target k := by
        unfold diffW
        ring
      rw [e]
      have h1 := getW_nonneg prev hpn k
      have h2 := getW_nonneg target htn k
      have h3 : 0 ≤ 1 - scaleFactor prev target := by linarith
      exact add_nonneg (mul_nonneg h3 h1) (mul_nonneg (le_of_lt hc0) h2)
    have hraw : limitedRaw prev target = (unionKeys prev target).map
        (fun k => (k, getW prev k + diffW prev target k * scaleFactor prev target)) := by
      unfold limitedRaw
      exact List.map_congr_left (fun k _ => by rw [max_eq_right (hpt k)])
    have hsum : wsum (limitedRaw prev target) = 1 := by
      rw [hraw, wsum_mapSelf, sum_map_linear]
      have e1 : ((unionKeys prev target).map (fun k => getW prev k)).sum = 1 := by
        rw [sum_getW_superset prev hpk _ hLnd hsubp, hps]
      have e2 : ((unionKeys prev target).map (fun k => diffW prev target k)).sum = 0 := by
        unfold diffW
        rw [sum_map_sub, sum_getW_superset target htk _ hLnd hsubt,
          sum_getW_superset prev hpk _ hLnd hsubp, hps, hts]
        ring
      rw [e1, e2]
      ring
    unfold limit_turnover
    rw [if_neg hcond, if_neg (by rw [hsum]; norm_num), hsum]
    have hid : (limitedRaw prev target).map (fun p => (p.1, p.2 / 1)) =
        limitedRaw prev target := by
      simp
    rw [hid, hraw]
    unfold l1dist
    rw [keysW_mapSelf]
    have hmem : ∀ k, k ∈ ((unionKeys prev target ++ keysW prev).dedup) ↔
        k ∈ unionKeys prev target := by
      intro k
      rw [List.mem_dedup, List.mem_append]
      constructor
      · rintro (h1 | h1)
        · exact h1
        · exact hsubp k h1
      · exact Or.inl
    rw [sum_map_congr_mem _ _ _ (List.nodup_dedup _) hLnd hmem]
    have hterm : ∀ k ∈ unionKeys prev target,
        |getW ((unionKeys prev target).map
            (fun x => (x, getW prev x + diffW prev target x * scaleFactor prev target))) k
          - getW prev k| = |diffW prev target k * scaleFactor prev target| := by
      intro k hk
      rw [getW_mapSelf, if_pos hk]
      have e : getW prev k + diffW prev target k * scaleFactor prev target - getW prev k =
          diffW prev target k * scaleFactor prev target := by
        ring
      rw [e]
    rw [List.map_congr_left hterm,
      sum_map_abs_mul _ _ _ (le_of_lt hc0)]
    have htv : ((unionKeys prev target).map (fun k => |diffW prev target k|)).sum =
        turnover prev target := rfl
    rw [htv, scaleFactor, mul_comm, div_mul_cancel₀ _ (ne_of_gt hT0)]

/-- C1 witness: prev = {A: 0.5, B: 0.5}, target = {A: 1, B: 0} has raw turnover
    1, beyond the 0.15 cap, and the limited output deviates from prev by at most
    the cap. -/
theorem limit_turnover_spec_witness :
    MAX_TURNOVER_PER_UPDATE <
      turnover [("A", 1 / 2), ("B", 1 / 2)] [("A", 1), ("B", 0)] ∧
    l1dist (limit_turnover [("A", 1 / 2), ("B", 1 / 2)] [("A", 1), ("B", 0)])
        [("A", 1 / 2), ("B", 1 / 2)] ≤ MAX_TURNOVER_PER_UPDATE := by
  have ht : turnover [("A", (1 : ℚ) / 2), ("B", 1 / 2)] [("A", 1), ("B", 0)] = 1 := by
    simp [turnover, unionKeys, keysW, diffW, getW]
    norm_num [abs_of_nonneg]
  have hbig : MAX_TURNOVER_PER_UPDATE <
      turnover [("A", (1 : ℚ) / 2), ("B", 1 / 2)] [("A", 1), ("B", 0)] := by
    rw [ht]
    norm_num [MAX_TURNOVER_PER_UPDATE]
  refine ⟨hbig, ?_⟩
  exact (limit_turnover_spec [("A", 1 / 2), ("B", 1 / 2)] [("A", 1), ("B", 0)]
    (by simp [keysW]) (by simp [keysW])
    (by simp [List.forall_mem_cons]) (by simp [List.forall_mem_cons])
    (by simp [wsum]; norm_num) (by simp [wsum])).2 hbig
